import Mathlib

/-!
A shallow embedding of `maxProfit.js` (Max Profit Problem, dynamic programming
over finish times) together with proofs about it.

The JS source keeps, for every finish time `0 ≤ t ≤ n`, a DP cell
`dp[t] = { profit, sequence }` where `profit = -1` marks an unreached cell.
We model the table as a `List DpEntry` of length `n + 1`, the mutating loops
as folds, and JS numbers by `ℤ` (profits) and `ℕ` (times); all quantities
involved stay far below any floating-point precision limit, so exact integers
are a faithful model.
-/

/-- Tag of a building type: the `name` field `"T"`, `"P"` or `"C"` of the
`BUILDING_TYPES` records. Only these three names occur in the program, so an
enumeration is a faithful model of the string field. -/
inductive BTag where
  | T
  | P
  | C
deriving DecidableEq, Repr

/-- A building-type record `{ time, earnings, name }` from `BUILDING_TYPES`. -/
structure Building where
  time : ℕ
  earnings : ℕ
  name : BTag
deriving DecidableEq, Repr

/-- `BUILDING_TYPES.THEATRE = { time: 5, earnings: 1500, name: "T" }`. -/
def THEATRE : Building := ⟨5, 1500, BTag.T⟩

/-- `BUILDING_TYPES.PUB = { time: 4, earnings: 1000, name: "P" }`. -/
def PUB : Building := ⟨4, 1000, BTag.P⟩

/-- `BUILDING_TYPES.COMMERCIAL = { time: 10, earnings: 2000, name: "C" }`. -/
def COMMERCIAL : Building := ⟨10, 2000, BTag.C⟩

/-- The catalog list `buildings = [THEATRE, PUB, COMMERCIAL]` built at the top
of `findMaxProfit`; the inner DP loop iterates over it in this order. -/
def buildings : List Building := [THEATRE, PUB, COMMERCIAL]

/-- The `{ T, P, C }` counts object. -/
structure Counts where
  T : ℕ
  P : ℕ
  C : ℕ
deriving DecidableEq, Repr

/-- Loop body of `calculateProfit`: walk the sequence accumulating
`currentTime`; a building whose finish time overruns `totalTime` triggers
`break`, modeled by returning `0` for the rest of the list. -/
def calcFrom (totalTime : ℕ) : List Building → ℕ → ℕ
  | [], _ => 0
  | b :: rest, currentTime =>
    let ct := currentTime + b.time
    if totalTime < ct then 0
    else (totalTime - ct) * b.earnings + calcFrom totalTime rest ct

/-- `calculateProfit(sequence, totalTime)` from the source: sum of
`(totalTime - finishTime) * earnings` over the completed buildings of the
sequence, finish times being cumulative durations. -/
def calculateProfit (sequence : List Building) (totalTime : ℕ) : ℕ :=
  calcFrom totalTime sequence 0

/-- One iteration of the `countBuildings` loop: `counts[building.name]++`. -/
def countStep (c : Counts) (b : Building) : Counts :=
  match b.name with
  | BTag.T => { c with T := c.T + 1 }
  | BTag.P => { c with P := c.P + 1 }
  | BTag.C => { c with C := c.C + 1 }

/-- `countBuildings(sequence)` from the source: tally of tags, starting from
`{ T: 0, P: 0, C: 0 }`. -/
def countBuildings (sequence : List Building) : Counts :=
  sequence.foldl countStep ⟨0, 0, 0⟩

/-- A DP cell `{ profit, sequence }`; `profit = -1` marks an unreached cell. -/
structure DpEntry where
  profit : ℤ
  sequence : List Building
deriving DecidableEq, Repr

/-- The sentinel cell `{ profit: -1, sequence: [] }` that
`new Array(n+1).fill(null).map(() => ({profit: -1, sequence: []}))` puts in
every slot. It is also what reading past the end of the table yields in our
model; the source never does such a read. -/
def unreachedEntry : DpEntry := ⟨-1, []⟩

/-- Read `dp[i]`. -/
def entryAt (dp : List DpEntry) (i : ℕ) : DpEntry :=
  dp.getD i unreachedEntry

/-- The table after initialization: `n + 1` sentinel cells, then
`dp[0] = { profit: 0, sequence: [] }`. -/
def dpInit (n : ℕ) : List DpEntry :=
  (List.replicate (n + 1) unreachedEntry).set 0 ⟨0, []⟩

/-- Body of the inner DP loop (`for (const building of buildings)`): try to
append building `b` to the state finishing at `time`; update
`dp[time + b.time]` when the cell is unreached or the candidate profit is
strictly greater. -/
def tryBuilding (n time : ℕ) (dp : List DpEntry) (b : Building) : List DpEntry :=
  let finishTime := time + b.time
  if finishTime ≤ n then
    let operationalTime := n - finishTime
    let buildingProfit : ℤ := (operationalTime * b.earnings : ℕ)
    let totalProfit := (entryAt dp time).profit + buildingProfit
    if (entryAt dp finishTime).profit < 0 ∨ (entryAt dp finishTime).profit < totalProfit then
      dp.set finishTime ⟨totalProfit, (entryAt dp time).sequence ++ [b]⟩
    else dp
  else dp

/-- Body of the outer DP loop (`for (let time = 0; time <= n; time++)`):
skip unreached cells, otherwise try each catalog building in order. -/
def step (n : ℕ) (dp : List DpEntry) (time : ℕ) : List DpEntry :=
  if (entryAt dp time).profit < 0 then dp
  else buildings.foldl (tryBuilding n time) dp

/-- The DP table after the first `k` iterations of the outer loop. -/
def dpUpTo (n k : ℕ) : List DpEntry :=
  (List.range k).foldl (step n) (dpInit n)

/-- The DP table after the whole forward loop (`time` from `0` to `n`). -/
def dpTable (n : ℕ) : List DpEntry :=
  dpUpTo n (n + 1)

/-- First pass after the loop: `maxProfit` = fold of
`if (dp[i].profit > maxProfit) maxProfit = dp[i].profit` over `i = 0..n`,
starting from `-1`. -/
def maxProfitOf (n : ℕ) (dp : List DpEntry) : ℤ :=
  (List.range (n + 1)).foldl
    (fun m i => if m < (entryAt dp i).profit then (entryAt dp i).profit else m) (-1)

/-- The inner scan run when `i === n` during solution collection: is there a
`j < n` with `dp[j].profit === maxProfit && dp[j].sequence.length > 0`? -/
def hasOtherSolutions (n : ℕ) (dp : List DpEntry) (mp : ℤ) : Bool :=
  (List.range n).any fun j =>
    decide ((entryAt dp j).profit = mp ∧ (entryAt dp j).sequence ≠ [])

/-- An element of `allSolutions`: `{ counts, sequence, finishTime }`. -/
structure Solution where
  counts : Counts
  sequence : List Building
  finishTime : ℕ
deriving DecidableEq, Repr

/-- Body of the solution-collection loop (`for (let i = 0; i <= n; i++)`).
The `seenCounts` set of the source always holds exactly the counts of the
solutions accumulated so far (the two are pushed in lockstep), so the
membership test on the accumulator models it. -/
def collectStep (n : ℕ) (dp : List DpEntry) (mp : ℤ) (acc : List Solution) (i : ℕ) :
    List Solution :=
  if (entryAt dp i).profit = mp ∧ (entryAt dp i).sequence ≠ [] then
    if i = n ∧ hasOtherSolutions n dp mp then acc
    else
      let c := countBuildings (entryAt dp i).sequence
      if acc.any fun s => decide (s.counts = c) then acc
      else acc ++ [⟨c, (entryAt dp i).sequence, i⟩]
  else acc

/-- The solution-collection loop after its first `k` iterations. -/
def collectUpTo (n : ℕ) (dp : List DpEntry) (mp : ℤ) (k : ℕ) : List Solution :=
  (List.range k).foldl (collectStep n dp mp) []

/-- All collected optimal solutions (iterations `i = 0 .. n`). -/
def allSolutionsOf (n : ℕ) (dp : List DpEntry) (mp : ℤ) : List Solution :=
  collectUpTo n dp mp (n + 1)

/-- The sort comparator as a boolean "less or equal": `solLE n a b` holds iff
the JS comparator returns a non-positive number on `(a, b)`, i.e. `a` may come
before `b`: solutions finishing before `n` precede the one finishing at `n`,
and otherwise higher finish times come first. -/
def solLE (n : ℕ) (a b : Solution) : Bool :=
  if a.finishTime < n ∧ b.finishTime = n then true
  else if a.finishTime = n ∧ b.finishTime < n then false
  else decide (b.finishTime ≤ a.finishTime)

/-- The comparator as a relation, for sorting. -/
def solRel (n : ℕ) : Solution → Solution → Prop :=
  fun a b => solLE n a b = true

instance (n : ℕ) : DecidableRel (solRel n) :=
  fun a b => instDecidableEqBool (solLE n a b) true

/-- The result record `{ profit, counts, sequence, allSolutions }`. -/
structure Result where
  profit : ℤ
  counts : Counts
  sequence : List Building
  allSolutions : List Counts
deriving DecidableEq, Repr

/-- The result returned when no sequence is found: profit `0`, zero counts,
empty sequence, no solutions. -/
def emptyResult : Result := ⟨0, ⟨0, 0, 0⟩, [], []⟩

/-- The fallback `{ counts: {T:0,P:0,C:0}, sequence: [] }` used when no
solution was collected (it has no `finishTime` field in the source; only its
counts and sequence are ever read, so the `0` here is immaterial). -/
def defaultSolution : Solution := ⟨⟨0, 0, 0⟩, [], 0⟩

/-- The collected optimal solutions of `findMaxProfit n`, sorted by the
comparator. -/
def sortedSolutions (n : ℕ) : List Solution :=
  List.insertionSort (solRel n) (allSolutionsOf n (dpTable n) (maxProfitOf n (dpTable n)))

/-- `findMaxProfit(n)` for a non-negative integer `n`: run the DP, take the
maximum profit over all finish times, collect all optimal solutions
(deduplicated by counts, skipping the degenerate finish at `n` when another
solution exists), sort them by the comparator, and return the first solution
(or zero counts and the empty sequence when none was collected). The JS sort
is a stable comparator sort; `List.insertionSort` is a stable comparator sort
too, and in fact at most one collected solution exists per finish time, so
the comparator never ties on distinct elements and every correct sort agrees
here. -/
def findMaxProfit (n : ℕ) : Result :=
  let maxProfit := maxProfitOf n (dpTable n)
  if maxProfit < 0 then emptyResult
  else
    let bestSolution := (sortedSolutions n).headD defaultSolution
    { profit := maxProfit
      counts := bestSolution.counts
      sequence := bestSolution.sequence
      allSolutions := (sortedSolutions n).map Solution.counts }

/-- `formatOutput(counts)`: the template literal
`` `T: ${counts.T} P: ${counts.P} C: ${counts.C}` ``. -/
def formatOutput (counts : Counts) : String :=
  "T: " ++ toString counts.T ++ " P: " ++ toString counts.P ++ " C: " ++ toString counts.C

/-- `solveMaxProfit(n)`. -/
def solveMaxProfit (n : ℕ) : String :=
  formatOutput (findMaxProfit n).counts

/-- The error a JS call `findMaxProfit(q)` can raise: `new Array(q + 1)`
throws a `RangeError` ("invalid array length") unless `q + 1` is an integer
in `[0, 2^32 - 1]`. The source defines no error type of its own. -/
inductive JsError where
  | rangeError
deriving DecidableEq, Repr

/-- A JS call `findMaxProfit(q)` for an arbitrary JS number `q`, modeled on
`ℚ` (every JS number relevant here — integers and small fractions — is an
exact rational; `NaN`/infinities are outside the claims considered).
`new Array(q + 1)` throws a `RangeError` unless `q + 1` is an integer in
`[0, 2^32 - 1]`. In the surviving case `q = -1` the table has length `0`
(the later write `dp[0] = ...` grows it), both loops `time <= -1` and
`i <= -1` run zero iterations, `maxProfit` stays `-1`, and the function
returns the empty result; for integers `q ≥ 0` the call is `findMaxProfit q`.
There is no input validation of any kind in the source. -/
def findMaxProfitJS (q : ℚ) : Except JsError Result :=
  if (q + 1).den = 1 ∧ 0 ≤ (q + 1).num ∧ (q + 1).num ≤ 2 ^ 32 - 1 then
    Except.ok (if q = -1 then emptyResult else findMaxProfit q.num.toNat)
  else
    Except.error JsError.rangeError

/-! ### Specification-side definitions

These follow the wording of the specification, for comparison with the code:
the profit of a build sequence and validity of a sequence w.r.t. a horizon. -/

/-- Total construction duration of a sequence. -/
def durSum (s : List Building) : ℕ :=
  (s.map Building.time).sum

/-- Spec-side profit of a sequence with construction so far taking `acc`
units: each building earns `(n − itsFinishTime) · itsEarnings`, finish times
being cumulative durations. -/
def profitAux (n : ℕ) : ℕ → List Building → ℕ
  | _, [] => 0
  | acc, b :: rest => (n - (acc + b.time)) * b.earnings + profitAux n (acc + b.time) rest

/-- Spec-side profit of a sequence over horizon `n` (finish times are the
cumulative durations from `0`). -/
def specProfit (n : ℕ) (s : List Building) : ℕ :=
  profitAux n 0 s

/-- Spec-side validity of a sequence for horizon `n`: the buildings are drawn
from the fixed catalog and every cumulative construction duration is at most
`n`. -/
def validSeq (n : ℕ) (s : List Building) : Prop :=
  (∀ b ∈ s, b ∈ buildings) ∧ ∀ k ≤ s.length, durSum (s.take k) ≤ n

instance (n : ℕ) (s : List Building) : Decidable (validSeq n s) :=
  inferInstanceAs
    (Decidable ((∀ b ∈ s, b ∈ buildings) ∧ ∀ k ≤ s.length, durSum (s.take k) ≤ n))

/-! ### Predicates used by the invariants -/

/-- Invariant of the DP table: it has `n + 1` cells, and every reached cell
(`profit ≥ 0`) at index `f` holds a catalog sequence whose durations sum to
exactly `f` and whose profit is its spec-side profit. -/
def TableOK (n : ℕ) (dp : List DpEntry) : Prop :=
  dp.length = n + 1 ∧
  ∀ f : ℕ, 0 ≤ (entryAt dp f).profit →
    (∀ b ∈ (entryAt dp f).sequence, b ∈ buildings) ∧
    durSum (entryAt dp f).sequence = f ∧
    (entryAt dp f).profit = (profitAux n 0 (entryAt dp f).sequence : ℤ)

/-- A finish time `i` passes all filters of the solution-collection loop:
its cell has profit `mp`, a nonempty sequence, and it is not the degenerate
finish at `n` being skipped in favor of other solutions. -/
def Qualifies (n : ℕ) (dp : List DpEntry) (mp : ℤ) (i : ℕ) : Prop :=
  (entryAt dp i).profit = mp ∧ (entryAt dp i).sequence ≠ [] ∧
    ¬(i = n ∧ hasOtherSolutions n dp mp = true)

/-- Soundness of one collected solution: it is the cell content of a
qualifying finish time, with its counts. -/
def SolOK (n : ℕ) (dp : List DpEntry) (mp : ℤ) (s : Solution) : Prop :=
  s.finishTime ≤ n ∧ Qualifies n dp mp s.finishTime ∧
    s.sequence = (entryAt dp s.finishTime).sequence ∧
    s.counts = countBuildings s.sequence

/-! ## Basic lemmas -/

@[simp] theorem THEATRE_time : THEATRE.time = 5 := rfl

@[simp] theorem PUB_time : PUB.time = 4 := rfl

@[simp] theorem COMMERCIAL_time : COMMERCIAL.time = 10 := rfl

theorem mem_buildings_iff {b : Building} :
    b ∈ buildings ↔ b = THEATRE ∨ b = PUB ∨ b = COMMERCIAL := by
  simp [buildings]

theorem time_pos_of_mem {b : Building} (hb : b ∈ buildings) : 0 < b.time := by
  rcases mem_buildings_iff.1 hb with rfl | rfl | rfl <;> decide

theorem entryAt_set_self (dp : List DpEntry) (i : ℕ) (e : DpEntry) (h : i < dp.length) :
    entryAt (dp.set i e) i = e := by
  unfold entryAt
  rw [List.getD_eq_getElem?_getD, List.getElem?_set_self h, Option.getD_some]

theorem entryAt_set_ne (dp : List DpEntry) (i j : ℕ) (e : DpEntry) (h : i ≠ j) :
    entryAt (dp.set i e) j = entryAt dp j := by
  unfold entryAt
  rw [List.getD_eq_getElem?_getD, List.getElem?_set_ne h, ← List.getD_eq_getElem?_getD]

@[simp] theorem length_dpInit (n : ℕ) : (dpInit n).length = n + 1 := by
  simp [dpInit]

theorem entryAt_dpInit (n i : ℕ) :
    entryAt (dpInit n) i = if i = 0 then ⟨0, []⟩ else unreachedEntry := by
  rcases eq_or_ne i 0 with rfl | h
  · rw [if_pos rfl]
    exact entryAt_set_self _ _ _ (by simp)
  · rw [if_neg h]
    unfold dpInit
    rw [entryAt_set_ne _ _ _ _ (Ne.symm h)]
    unfold entryAt
    rw [List.getD_eq_getElem?_getD, List.getElem?_replicate]
    split <;> rfl

@[simp] theorem length_tryBuilding (n t : ℕ) (dp : List DpEntry) (b : Building) :
    (tryBuilding n t dp b).length = dp.length := by
  simp only [tryBuilding]
  split <;> [skip; rfl]
  split <;> simp

theorem entryAt_tryBuilding_ne {f : ℕ} (n t : ℕ) (dp : List DpEntry) (b : Building)
    (h : f ≠ t + b.time) :
    entryAt (tryBuilding n t dp b) f = entryAt dp f := by
  simp only [tryBuilding]
  split <;> [skip; rfl]
  split
  · exact entryAt_set_ne _ _ _ _ (Ne.symm h)
  · rfl

theorem tryBuilding_reach (n t : ℕ) (dp : List DpEntry) (b : Building)
    (hlen : dp.length = n + 1) (hft : t + b.time ≤ n) :
    (entryAt dp t).profit + (((n - (t + b.time)) * b.earnings : ℕ) : ℤ) ≤
      (entryAt (tryBuilding n t dp b) (t + b.time)).profit := by
  simp only [tryBuilding]
  rw [if_pos hft]
  split
  next hg =>
    rw [entryAt_set_self _ _ _ (by omega)]
  next hg =>
    push_neg at hg
    exact hg.2

theorem tryBuilding_mono (n t : ℕ) (dp : List DpEntry) (b : Building)
    (hsrc : 0 ≤ (entryAt dp t).profit) (f : ℕ) :
    (entryAt dp f).profit ≤ (entryAt (tryBuilding n t dp b) f).profit := by
  rcases eq_or_ne f (t + b.time) with rfl | hne
  · simp only [tryBuilding]
    split <;> [skip; exact le_rfl]
    split
    next hg =>
      rcases Nat.lt_or_ge (t + b.time) dp.length with hl | hl
      · rw [entryAt_set_self _ _ _ hl]
        rcases hg with hg | hg
        · exact le_trans (le_of_lt hg) (by positivity)
        · exact le_of_lt hg
      · rw [List.set_eq_of_length_le (by omega)]
    next => exact le_rfl
  · rw [entryAt_tryBuilding_ne _ _ _ _ hne]

theorem step_eq (n : ℕ) (dp : List DpEntry) (t : ℕ) :
    step n dp t =
      if (entryAt dp t).profit < 0 then dp
      else tryBuilding n t (tryBuilding n t (tryBuilding n t dp THEATRE) PUB) COMMERCIAL := rfl

@[simp] theorem length_step (n : ℕ) (dp : List DpEntry) (t : ℕ) :
    (step n dp t).length = dp.length := by
  rw [step_eq]
  split <;> simp

theorem entryAt_tb1 (n t : ℕ) (dp : List DpEntry) :
    entryAt (tryBuilding n t dp THEATRE) t = entryAt dp t :=
  entryAt_tryBuilding_ne _ _ _ _ (by simp only [THEATRE_time]; omega)

theorem entryAt_tb2 (n t : ℕ) (dp : List DpEntry) :
    entryAt (tryBuilding n t (tryBuilding n t dp THEATRE) PUB) t = entryAt dp t := by
  rw [entryAt_tryBuilding_ne _ _ _ _ (by simp only [PUB_time]; omega), entryAt_tb1]

theorem entryAt_step_le (n t : ℕ) (dp : List DpEntry) {f : ℕ} (h : f ≤ t) :
    entryAt (step n dp t) f = entryAt dp f := by
  rw [step_eq]
  split
  · rfl
  · rw [entryAt_tryBuilding_ne _ _ _ _ (by simp only [COMMERCIAL_time]; omega),
      entryAt_tryBuilding_ne _ _ _ _ (by simp only [PUB_time]; omega),
      entryAt_tryBuilding_ne _ _ _ _ (by simp only [THEATRE_time]; omega)]

theorem step_mono (n t : ℕ) (dp : List DpEntry) (f : ℕ) :
    (entryAt dp f).profit ≤ (entryAt (step n dp t) f).profit := by
  rw [step_eq]
  split
  · exact le_rfl
  next hg =>
    have hsrc : 0 ≤ (entryAt dp t).profit := not_lt.1 hg
    refine le_trans (tryBuilding_mono n t dp THEATRE hsrc f) ?_
    refine le_trans (tryBuilding_mono n t _ PUB (by rw [entryAt_tb1]; exact hsrc) f) ?_
    exact tryBuilding_mono n t _ COMMERCIAL (by rw [entryAt_tb2]; exact hsrc) f

theorem step_reach (n t : ℕ) (dp : List DpEntry) (b : Building) (hlen : dp.length = n + 1)
    (hb : b ∈ buildings) (hft : t + b.time ≤ n) (hsrc : 0 ≤ (entryAt dp t).profit) :
    (entryAt dp t).profit + (((n - (t + b.time)) * b.earnings : ℕ) : ℤ) ≤
      (entryAt (step n dp t) (t + b.time)).profit := by
  rw [step_eq, if_neg (not_lt.2 hsrc)]
  have hlen1 : (tryBuilding n t dp THEATRE).length = n + 1 := by simp [hlen]
  have hlen2 : (tryBuilding n t (tryBuilding n t dp THEATRE) PUB).length = n + 1 := by
    simp [hlen]
  rcases mem_buildings_iff.1 hb with rfl | rfl | rfl
  · refine le_trans (tryBuilding_reach n t dp THEATRE hlen hft) ?_
    refine le_trans (tryBuilding_mono n t _ PUB (by rw [entryAt_tb1]; exact hsrc) _) ?_
    exact tryBuilding_mono n t _ COMMERCIAL (by rw [entryAt_tb2]; exact hsrc) _
  · have h := tryBuilding_reach n t (tryBuilding n t dp THEATRE) PUB hlen1 hft
    rw [entryAt_tb1] at h
    exact le_trans h (tryBuilding_mono n t _ COMMERCIAL (by rw [entryAt_tb2]; exact hsrc) _)
  · have h := tryBuilding_reach n t (tryBuilding n t (tryBuilding n t dp THEATRE) PUB)
      COMMERCIAL hlen2 hft
    rw [entryAt_tb2] at h
    exact h

theorem dpUpTo_zero (n : ℕ) : dpUpTo n 0 = dpInit n := rfl

theorem dpUpTo_succ (n k : ℕ) : dpUpTo n (k + 1) = step n (dpUpTo n k) k := by
  unfold dpUpTo
  rw [List.range_succ, List.foldl_append, List.foldl_cons, List.foldl_nil]

@[simp] theorem length_dpUpTo (n k : ℕ) : (dpUpTo n k).length = n + 1 := by
  induction k with
  | zero => simp [dpUpTo_zero]
  | succ k ih => rw [dpUpTo_succ, length_step, ih]

@[simp] theorem length_dpTable (n : ℕ) : (dpTable n).length = n + 1 :=
  length_dpUpTo n (n + 1)

theorem entryAt_dpUpTo_stable (n : ℕ) {f k m : ℕ} (h1 : f < k) (h2 : k ≤ m) :
    entryAt (dpUpTo n m) f = entryAt (dpUpTo n k) f := by
  induction m with
  | zero => exact absurd h1 (by omega)
  | succ m ih =>
    rcases eq_or_ne k (m + 1) with rfl | hne
    · rfl
    · rw [dpUpTo_succ, entryAt_step_le _ _ _ (by omega), ih (by omega)]

theorem dpUpTo_mono (n : ℕ) {k m : ℕ} (h : k ≤ m) (f : ℕ) :
    (entryAt (dpUpTo n k) f).profit ≤ (entryAt (dpUpTo n m) f).profit := by
  induction m with
  | zero =>
    obtain rfl : k = 0 := by omega
    exact le_rfl
  | succ m ih =>
    rcases eq_or_ne k (m + 1) with rfl | hne
    · exact le_rfl
    · refine le_trans (ih (by omega)) ?_
      rw [dpUpTo_succ]
      exact step_mono n m (dpUpTo n m) f

theorem entryAt_dpTable_zero (n : ℕ) : entryAt (dpTable n) 0 = ⟨0, []⟩ := by
  show entryAt (dpUpTo n (n + 1)) 0 = _
  rw [entryAt_dpUpTo_stable n (show 0 < 1 by omega) (show 1 ≤ n + 1 by omega), dpUpTo_succ,
    entryAt_step_le _ _ _ le_rfl, dpUpTo_zero, entryAt_dpInit, if_pos rfl]

/-! ## Sequence profit lemmas -/

@[simp] theorem durSum_nil : durSum [] = 0 := rfl

@[simp] theorem durSum_cons (b : Building) (s : List Building) :
    durSum (b :: s) = b.time + durSum s := by
  simp [durSum]

@[simp] theorem durSum_append_singleton (s : List Building) (b : Building) :
    durSum (s ++ [b]) = durSum s + b.time := by
  simp [durSum]

theorem profitAux_append (n : ℕ) (s : List Building) (b : Building) :
    ∀ acc : ℕ,
      profitAux n acc (s ++ [b]) =
        profitAux n acc s + (n - (acc + durSum s + b.time)) * b.earnings := by
  induction s with
  | nil => intro acc; simp [profitAux]
  | cons hd tl ih =>
    intro acc
    rw [List.cons_append]
    show (n - (acc + hd.time)) * hd.earnings + profitAux n (acc + hd.time) (tl ++ [b]) = _
    rw [ih (acc + hd.time)]
    have harr : acc + hd.time + durSum tl + b.time = acc + durSum (hd :: tl) + b.time := by
      rw [durSum_cons]; omega
    rw [harr]
    show _ = (n - (acc + hd.time)) * hd.earnings + profitAux n (acc + hd.time) tl +
      (n - (acc + durSum (hd :: tl) + b.time)) * b.earnings
    omega

theorem calcFrom_eq_profitAux (n : ℕ) (s : List Building) :
    ∀ acc : ℕ, acc + durSum s ≤ n → calcFrom n s acc = profitAux n acc s := by
  induction s with
  | nil => intro acc _; rfl
  | cons b tl ih =>
    intro acc h
    rw [durSum_cons] at h
    show (if n < acc + b.time then 0
      else (n - (acc + b.time)) * b.earnings + calcFrom n tl (acc + b.time)) = _
    rw [if_neg (by omega), ih (acc + b.time) (by omega)]
    rfl

theorem durSum_take_le (s : List Building) : ∀ k : ℕ, durSum (s.take k) ≤ durSum s := by
  induction s with
  | nil => intro k; simp
  | cons b tl ih =>
    intro k
    cases k with
    | zero => simp
    | succ k =>
      rw [List.take_succ_cons, durSum_cons, durSum_cons]
      exact Nat.add_le_add_left (ih k) _

theorem validSeq_iff (n : ℕ) (s : List Building) :
    validSeq n s ↔ (∀ b ∈ s, b ∈ buildings) ∧ durSum s ≤ n := by
  constructor
  · rintro ⟨hmem, hcum⟩
    refine ⟨hmem, ?_⟩
    have := hcum s.length le_rfl
    rwa [List.take_length] at this
  · rintro ⟨hmem, hsum⟩
    exact ⟨hmem, fun k _ => le_trans (durSum_take_le s k) hsum⟩

/-! ## The table invariant -/

theorem tableOK_dpInit (n : ℕ) : TableOK n (dpInit n) := by
  refine ⟨length_dpInit n, fun f hf => ?_⟩
  rw [entryAt_dpInit] at hf ⊢
  split at hf
  next h =>
    subst h
    rw [if_pos rfl]
    refine ⟨by simp, rfl, rfl⟩
  next h =>
    exact absurd hf (by decide)

theorem tryBuilding_tableOK {n t : ℕ} {dp : List DpEntry} {b : Building}
    (hT : TableOK n dp) (hsrc : 0 ≤ (entryAt dp t).profit) (hb : b ∈ buildings) :
    TableOK n (tryBuilding n t dp b) := by
  obtain ⟨hlen, hinv⟩ := hT
  refine ⟨by simp [hlen], fun f hf => ?_⟩
  rcases eq_or_ne f (t + b.time) with rfl | hne
  · revert hf
    simp only [tryBuilding]
    split <;> [skip; exact fun hf => hinv _ hf]
    split <;> [skip; exact fun hf => hinv _ hf]
    next hft hg =>
      intro _
      rw [entryAt_set_self _ _ _ (by omega)]
      obtain ⟨hmem, hdur, hpr⟩ := hinv t hsrc
      refine ⟨?_, ?_, ?_⟩
      · intro x hx
        rcases List.mem_append.1 hx with hx | hx
        · exact hmem x hx
        · rw [List.mem_singleton.1 hx]; exact hb
      · rw [durSum_append_singleton, hdur]
      · show (entryAt dp t).profit + (((n - (t + b.time)) * b.earnings : ℕ) : ℤ) = _
        rw [hpr, profitAux_append n _ b 0, hdur]
        push_cast
        ring_nf
  · rw [entryAt_tryBuilding_ne _ _ _ _ hne] at hf ⊢
    exact hinv f hf

theorem step_tableOK {n : ℕ} {dp : List DpEntry} (t : ℕ) (hT : TableOK n dp) :
    TableOK n (step n dp t) := by
  rw [step_eq]
  split
  · exact hT
  next hg =>
    have hsrc : 0 ≤ (entryAt dp t).profit := not_lt.1 hg
    refine tryBuilding_tableOK (tryBuilding_tableOK (tryBuilding_tableOK hT hsrc ?_)
      (by rw [entryAt_tb1]; exact hsrc) ?_) (by rw [entryAt_tb2]; exact hsrc) ?_
    · exact mem_buildings_iff.2 (Or.inl rfl)
    · exact mem_buildings_iff.2 (Or.inr (Or.inl rfl))
    · exact mem_buildings_iff.2 (Or.inr (Or.inr rfl))

theorem tableOK_dpUpTo (n k : ℕ) : TableOK n (dpUpTo n k) := by
  induction k with
  | zero => exact tableOK_dpInit n
  | succ k ih => rw [dpUpTo_succ]; exact step_tableOK k ih

theorem tableOK_dpTable (n : ℕ) : TableOK n (dpTable n) :=
  tableOK_dpUpTo n (n + 1)

/-! ## Dominance: the DP table majorizes every valid sequence -/

theorem dp_dominance (n : ℕ) (s : List Building) (hmem : ∀ b ∈ s, b ∈ buildings)
    (hsum : durSum s ≤ n) :
    (profitAux n 0 s : ℤ) ≤ (entryAt (dpTable n) (durSum s)).profit := by
  induction s using List.reverseRecOn with
  | nil =>
    rw [durSum_nil, entryAt_dpTable_zero]
    exact le_rfl
  | append_singleton s b ih =>
    have hs : ∀ x ∈ s, x ∈ buildings := fun x hx => hmem x (List.mem_append_left _ hx)
    have hb : b ∈ buildings := hmem b (List.mem_append_right _ (List.mem_singleton.2 rfl))
    rw [durSum_append_singleton] at hsum ⊢
    have ht : durSum s ≤ n := by omega
    have ih' := ih hs ht
    set t := durSum s with hts
    have hstab : entryAt (dpTable n) t = entryAt (dpUpTo n t) t := by
      show entryAt (dpUpTo n (n + 1)) t = _
      rw [entryAt_dpUpTo_stable n (Nat.lt_succ_self t) (by omega), dpUpTo_succ,
        entryAt_step_le _ _ _ le_rfl]
    have hsrc : 0 ≤ (entryAt (dpUpTo n t) t).profit := by
      rw [← hstab]
      exact le_trans (by positivity) ih'
    have hreach := step_reach n t (dpUpTo n t) b (length_dpUpTo n t) hb hsum hsrc
    rw [← dpUpTo_succ] at hreach
    have hmono := dpUpTo_mono n (show t + 1 ≤ n + 1 by omega) (t + b.time)
    have hcast : (profitAux n 0 (s ++ [b]) : ℤ) =
        (profitAux n 0 s : ℤ) + (((n - (t + b.time)) * b.earnings : ℕ) : ℤ) := by
      rw [profitAux_append n s b 0, hts]
      push_cast
      ring_nf
    rw [hcast]
    calc (profitAux n 0 s : ℤ) + (((n - (t + b.time)) * b.earnings : ℕ) : ℤ)
        ≤ (entryAt (dpUpTo n t) t).profit + (((n - (t + b.time)) * b.earnings : ℕ) : ℤ) := by
          rw [← hstab]; exact add_le_add_right ih' _
      _ ≤ (entryAt (dpUpTo n (t + 1)) (t + b.time)).profit := hreach
      _ ≤ (entryAt (dpTable n) (t + b.time)).profit := hmono

/-! ## The max-profit pass -/

theorem foldlMax_init_le (g : ℕ → ℤ) (l : List ℕ) :
    ∀ a : ℤ, a ≤ l.foldl (fun m i => if m < g i then g i else m) a := by
  induction l with
  | nil => intro a; exact le_rfl
  | cons i l ih =>
    intro a
    refine le_trans ?_ (ih (if a < g i then g i else a))
    split <;> [exact le_of_lt (by assumption); exact le_rfl]

theorem foldlMax_le_of_mem (g : ℕ → ℤ) {l : List ℕ} {i : ℕ} (h : i ∈ l) :
    ∀ a : ℤ, g i ≤ l.foldl (fun m i => if m < g i then g i else m) a := by
  induction l with
  | nil => exact absurd h (List.not_mem_nil i)
  | cons j l ih =>
    intro a
    rw [List.foldl_cons]
    rcases List.mem_cons.1 h with rfl | h
    · refine le_trans ?_ (foldlMax_init_le g l _)
      by_cases hc : a < g i
      · rw [if_pos hc]
      · rw [if_neg hc]
        exact not_lt.1 hc
    · exact ih h _

theorem foldlMax_cases (g : ℕ → ℤ) (l : List ℕ) :
    ∀ a : ℤ, l.foldl (fun m i => if m < g i then g i else m) a = a ∨
      ∃ i ∈ l, l.foldl (fun m i => if m < g i then g i else m) a = g i := by
  induction l with
  | nil => intro a; exact Or.inl rfl
  | cons j l ih =>
    intro a
    rcases ih (if a < g j then g j else a) with h | ⟨i, hi, h⟩
    · rw [List.foldl_cons, h]
      split
      · exact Or.inr ⟨j, List.mem_cons_self j l, rfl⟩
      · exact Or.inl rfl
    · exact Or.inr ⟨i, List.mem_cons_of_mem j hi, by rw [List.foldl_cons, h]⟩

theorem le_maxProfitOf {n i : ℕ} (dp : List DpEntry) (h : i ≤ n) :
    (entryAt dp i).profit ≤ maxProfitOf n dp :=
  foldlMax_le_of_mem _ (List.mem_range.2 (by omega)) (-1)

theorem maxProfitOf_dpTable_nonneg (n : ℕ) : 0 ≤ maxProfitOf n (dpTable n) := by
  have h := le_maxProfitOf (dpTable n) (Nat.zero_le n)
  rw [entryAt_dpTable_zero] at h
  exact h

theorem maxProfitOf_attained {n : ℕ} (dp : List DpEntry) (h : 0 ≤ maxProfitOf n dp) :
    ∃ i ≤ n, (entryAt dp i).profit = maxProfitOf n dp := by
  rcases foldlMax_cases (fun i => (entryAt dp i).profit) (List.range (n + 1)) (-1) with hc | hc
  · rw [maxProfitOf] at h
    rw [hc] at h
    exact absurd h (by decide)
  · obtain ⟨i, hi, hc⟩ := hc
    exact ⟨i, by have := List.mem_range.1 hi; omega, hc.symm⟩

/-! ## The collection loop -/

theorem hasOtherSolutions_iff (n : ℕ) (dp : List DpEntry) (mp : ℤ) :
    hasOtherSolutions n dp mp = true ↔
      ∃ j < n, (entryAt dp j).profit = mp ∧ (entryAt dp j).sequence ≠ [] := by
  simp [hasOtherSolutions, List.any_eq_true, List.mem_range]

theorem collectUpTo_succ (n : ℕ) (dp : List DpEntry) (mp : ℤ) (k : ℕ) :
    collectUpTo n dp mp (k + 1) = collectStep n dp mp (collectUpTo n dp mp k) k := by
  unfold collectUpTo
  rw [List.range_succ, List.foldl_append, List.foldl_cons, List.foldl_nil]

theorem collectStep_subset {n : ℕ} {dp : List DpEntry} {mp : ℤ} {acc : List Solution} {i : ℕ}
    {s : Solution} (h : s ∈ acc) : s ∈ collectStep n dp mp acc i := by
  simp only [collectStep]
  split_ifs <;> first | exact h | exact List.mem_append_left _ h

theorem collect_sound (n : ℕ) (dp : List DpEntry) (mp : ℤ) :
    ∀ k, k ≤ n + 1 → ∀ s ∈ collectUpTo n dp mp k, SolOK n dp mp s := by
  intro k
  induction k with
  | zero =>
    intro _ s hs
    simp [collectUpTo] at hs
  | succ k ih =>
    intro hk s hs
    rw [collectUpTo_succ] at hs
    revert hs
    simp only [collectStep]
    split_ifs with h1 h2 h3
    · exact fun hs => ih (by omega) s hs
    · exact fun hs => ih (by omega) s hs
    · intro hs
      rcases List.mem_append.1 hs with hs | hs
      · exact ih (by omega) s hs
      · rw [List.mem_singleton.1 hs]
        exact ⟨(by omega : k ≤ n), ⟨h1.1, h1.2, h2⟩, rfl, rfl⟩
    · exact fun hs => ih (by omega) s hs

theorem foldl_countStep_weight :
    ∀ s : List Building, (∀ b ∈ s, b ∈ buildings) → ∀ c : Counts,
      5 * (s.foldl countStep c).T + 4 * (s.foldl countStep c).P +
          10 * (s.foldl countStep c).C =
        5 * c.T + 4 * c.P + 10 * c.C + durSum s := by
  intro s
  induction s with
  | nil => intro _ c; simp
  | cons b tl ih =>
    intro hmem c
    have hb := hmem b (List.mem_cons_self b tl)
    have htl : ∀ x ∈ tl, x ∈ buildings := fun x hx => hmem x (List.mem_cons_of_mem b hx)
    rw [List.foldl_cons, durSum_cons, ih htl (countStep c b)]
    rcases mem_buildings_iff.1 hb with rfl | rfl | rfl <;>
      simp [countStep, THEATRE, PUB, COMMERCIAL] <;> omega

theorem countBuildings_weight {s : List Building} (hmem : ∀ b ∈ s, b ∈ buildings) :
    5 * (countBuildings s).T + 4 * (countBuildings s).P + 10 * (countBuildings s).C =
      durSum s := by
  have h := foldl_countStep_weight s hmem ⟨0, 0, 0⟩
  simpa [countBuildings] using h

theorem collect_complete {n : ℕ} {dp : List DpEntry} {mp : ℤ}
    (hT : TableOK n dp) (hmp : 0 ≤ mp) :
    ∀ k, k ≤ n + 1 → ∀ i < k, Qualifies n dp mp i →
      ∃ s ∈ collectUpTo n dp mp k, s.finishTime = i := by
  intro k
  induction k with
  | zero => intro _ i hi _; omega
  | succ k ih =>
    intro hk i hi hq
    rcases Nat.lt_or_ge i k with hik | hik
    · obtain ⟨s, hs, hft⟩ := ih (by omega) i hik hq
      exact ⟨s, by rw [collectUpTo_succ]; exact collectStep_subset hs, hft⟩
    · obtain rfl : i = k := by omega
      rw [collectUpTo_succ]
      obtain ⟨hq1, hq2, hq3⟩ := hq
      simp only [collectStep]
      rw [if_pos ⟨hq1, hq2⟩, if_neg hq3]
      by_cases hd : (collectUpTo n dp mp i).any
          fun s => decide (s.counts = countBuildings (entryAt dp i).sequence)
      · rw [if_pos hd]
        obtain ⟨s, hs, hsc⟩ := List.any_eq_true.1 hd
        have hsc : s.counts = countBuildings (entryAt dp i).sequence := of_decide_eq_true hsc
        obtain ⟨hsle, hsq, hsseq, hscounts⟩ := collect_sound n dp mp i (by omega) s hs
        obtain ⟨hlen, hinv⟩ := hT
        have hprof_s : 0 ≤ (entryAt dp s.finishTime).profit := by rw [hsq.1]; exact hmp
        have hprof_i : 0 ≤ (entryAt dp i).profit := by rw [hq1]; exact hmp
        obtain ⟨hsmem, hsdur, _⟩ := hinv s.finishTime hprof_s
        obtain ⟨himem, hidur, _⟩ := hinv i hprof_i
        rw [hsseq] at hscounts
        have hcc : countBuildings (entryAt dp s.finishTime).sequence =
            countBuildings (entryAt dp i).sequence := by rw [← hscounts, hsc]
        have hdd : durSum (entryAt dp s.finishTime).sequence =
            durSum (entryAt dp i).sequence := by
          rw [← countBuildings_weight hsmem, ← countBuildings_weight himem, hcc]
        have hfi : s.finishTime = i := by rw [← hsdur, hdd, hidur]
        exact ⟨s, hs, hfi⟩
      · rw [if_neg hd]
        exact ⟨⟨countBuildings (entryAt dp i).sequence, (entryAt dp i).sequence, i⟩,
          List.mem_append_right _ (List.mem_singleton.2 rfl), rfl⟩

/-! ## The comparator and the sort -/

theorem solRel_refl (n : ℕ) (a : Solution) : solRel n a a := by
  simp only [solRel, solLE]
  split_ifs with h1 h2
  · rfl
  · exact absurd h2 (by omega)
  · simp

instance solRel_total (n : ℕ) : IsTotal Solution (solRel n) := by
  refine ⟨fun a b => ?_⟩
  simp only [solRel, solLE]
  split_ifs <;> simp_all
  omega

instance solRel_trans (n : ℕ) : IsTrans Solution (solRel n) := by
  refine ⟨fun a b c hab hbc => ?_⟩
  simp only [solRel, solLE] at hab hbc ⊢
  split_ifs at hab hbc ⊢ <;> simp_all <;> omega

theorem sortedSolutions_sorted (n : ℕ) : List.Sorted (solRel n) (sortedSolutions n) :=
  List.sorted_insertionSort _ _

theorem mem_sortedSolutions {n : ℕ} {s : Solution} :
    s ∈ sortedSolutions n ↔ s ∈ allSolutionsOf n (dpTable n) (maxProfitOf n (dpTable n)) :=
  (List.perm_insertionSort _ _).mem_iff

theorem sorted_sound {n : ℕ} {s : Solution} (h : s ∈ sortedSolutions n) :
    SolOK n (dpTable n) (maxProfitOf n (dpTable n)) s :=
  collect_sound n _ _ (n + 1) le_rfl s (mem_sortedSolutions.1 h)

theorem sortedSolutions_head_rel {n : ℕ} {s : Solution} {rest : List Solution}
    (h : sortedSolutions n = s :: rest) : ∀ x ∈ sortedSolutions n, solRel n s x := by
  intro x hx
  rw [h] at hx
  rcases List.mem_cons.1 hx with rfl | hx
  · exact solRel_refl n x
  · have hs := sortedSolutions_sorted n
    rw [h, List.sorted_cons] at hs
    exact hs.1 x hx

theorem exists_sorted_of_qualifies {n i : ℕ} (hi : i ≤ n)
    (hq : Qualifies n (dpTable n) (maxProfitOf n (dpTable n)) i) :
    ∃ s ∈ sortedSolutions n, s.finishTime = i := by
  obtain ⟨s, hs, hf⟩ := collect_complete (tableOK_dpTable n) (maxProfitOf_dpTable_nonneg n)
    (n + 1) le_rfl i (by omega) hq
  exact ⟨s, mem_sortedSolutions.2 hs, hf⟩

/-! ## Shape of the returned result -/

theorem findMaxProfit_eq (n : ℕ) :
    findMaxProfit n =
      { profit := maxProfitOf n (dpTable n)
        counts := ((sortedSolutions n).headD defaultSolution).counts
        sequence := ((sortedSolutions n).headD defaultSolution).sequence
        allSolutions := (sortedSolutions n).map Solution.counts } := by
  simp only [findMaxProfit]
  rw [if_neg (not_lt.2 (maxProfitOf_dpTable_nonneg n))]

theorem findMaxProfit_profit (n : ℕ) :
    (findMaxProfit n).profit = maxProfitOf n (dpTable n) := by
  rw [findMaxProfit_eq]

theorem maxProfitOf_eq_zero_of_sorted_nil {n : ℕ} (h : sortedSolutions n = []) :
    maxProfitOf n (dpTable n) = 0 := by
  have hnn := maxProfitOf_dpTable_nonneg n
  rcases eq_or_lt_of_le hnn with heq | hpos
  · exact heq.symm
  · exfalso
    obtain ⟨i, hile, hieq⟩ := maxProfitOf_attained (dpTable n) hnn
    have hi0 : i ≠ 0 := by
      intro h0
      subst h0
      rw [entryAt_dpTable_zero] at hieq
      simp only at hieq
      omega
    have hprof : 0 ≤ (entryAt (dpTable n) i).profit := by rw [hieq]; exact hnn
    obtain ⟨hmem, hdur, _⟩ := (tableOK_dpTable n).2 i hprof
    have hne : (entryAt (dpTable n) i).sequence ≠ [] := by
      intro hnil
      rw [hnil, durSum_nil] at hdur
      exact hi0 hdur.symm
    by_cases hq3 : i = n ∧ hasOtherSolutions n (dpTable n) (maxProfitOf n (dpTable n)) = true
    · obtain ⟨j, hjn, hjp, hjs⟩ := (hasOtherSolutions_iff n (dpTable n) _).1 hq3.2
      have hqj : Qualifies n (dpTable n) (maxProfitOf n (dpTable n)) j :=
        ⟨hjp, hjs, by rintro ⟨rfl, _⟩; omega⟩
      obtain ⟨s, hs, _⟩ := exists_sorted_of_qualifies (by omega) hqj
      rw [h] at hs
      exact List.not_mem_nil s hs
    · have hqi : Qualifies n (dpTable n) (maxProfitOf n (dpTable n)) i := ⟨hieq, hne, hq3⟩
      obtain ⟨s, hs, _⟩ := exists_sorted_of_qualifies hile hqi
      rw [h] at hs
      exact List.not_mem_nil s hs

theorem findMaxProfit_cases (n : ℕ) :
    (sortedSolutions n = [] ∧ (findMaxProfit n).sequence = [] ∧
      (findMaxProfit n).counts = ⟨0, 0, 0⟩ ∧ (findMaxProfit n).profit = 0) ∨
    (∃ s rest, sortedSolutions n = s :: rest ∧ (findMaxProfit n).sequence = s.sequence ∧
      (findMaxProfit n).counts = s.counts ∧
      SolOK n (dpTable n) (maxProfitOf n (dpTable n)) s ∧
      (∀ x ∈ sortedSolutions n, solRel n s x)) := by
  cases hs : sortedSolutions n with
  | nil =>
    left
    refine ⟨rfl, ?_, ?_, ?_⟩
    · rw [findMaxProfit_eq, hs]
      rfl
    · rw [findMaxProfit_eq, hs]
      rfl
    · rw [findMaxProfit_profit]
      exact maxProfitOf_eq_zero_of_sorted_nil hs
  | cons s rest =>
    right
    refine ⟨s, rest, rfl, ?_, ?_, ?_, ?_⟩
    · rw [findMaxProfit_eq, hs]
      rfl
    · rw [findMaxProfit_eq, hs]
      rfl
    · exact sorted_sound (by rw [hs]; exact List.mem_cons_self s rest)
    · intro x hx
      exact sortedSolutions_head_rel hs x (by rw [hs]; exact hx)

theorem findMaxProfit_achieves (n : ℕ) :
    (∀ b ∈ (findMaxProfit n).sequence, b ∈ buildings) ∧
    durSum (findMaxProfit n).sequence ≤ n ∧
    (specProfit n (findMaxProfit n).sequence : ℤ) = (findMaxProfit n).profit := by
  rcases findMaxProfit_cases n with ⟨_, hseq, _, hpr⟩ | ⟨s, rest, _, hseq, _, hok, _⟩
  · rw [hseq, hpr]
    exact ⟨by simp, by simp, rfl⟩
  · obtain ⟨hle, hq, hsseq, _⟩ := hok
    have hprof : 0 ≤ (entryAt (dpTable n) s.finishTime).profit := by
      rw [hq.1]
      exact maxProfitOf_dpTable_nonneg n
    obtain ⟨hmem, hdur, hpr⟩ := (tableOK_dpTable n).2 s.finishTime hprof
    refine ⟨?_, ?_, ?_⟩
    · rw [hseq, hsseq]
      exact hmem
    · rw [hseq, hsseq, hdur]
      exact hle
    · rw [hseq, hsseq, findMaxProfit_profit, ← hq.1, hpr]
      rfl

theorem findMaxProfit_upper (n : ℕ) (s : List Building) (h : validSeq n s) :
    (specProfit n s : ℤ) ≤ (findMaxProfit n).profit := by
  obtain ⟨hmem, hsum⟩ := (validSeq_iff n s).1 h
  rw [findMaxProfit_profit]
  exact le_trans (dp_dominance n s hmem hsum) (le_maxProfitOf (dpTable n) hsum)

/-- C1: for every `n`, the profit returned by `findMaxProfit n` is the true
optimum over all sequences of catalog buildings whose cumulative construction
durations each fit in the horizon: no valid sequence earns more (the profit of
a sequence being the sum of `(n − finishTime) · earnings` over its buildings),
and the returned sequence itself is valid and earns exactly the returned
profit, so the maximum is attained. -/
theorem findMaxProfit_optimal (n : ℕ) :
    (∀ s, validSeq n s → (specProfit n s : ℤ) ≤ (findMaxProfit n).profit) ∧
    validSeq n (findMaxProfit n).sequence ∧
    (specProfit n (findMaxProfit n).sequence : ℤ) = (findMaxProfit n).profit := by
  obtain ⟨hmem, hdur, hpr⟩ := findMaxProfit_achieves n
  exact ⟨fun s hs => findMaxProfit_upper n s hs, (validSeq_iff _ _).2 ⟨hmem, hdur⟩, hpr⟩

/-- Witness for C1 at `n = 7` with the valid sequence `[PUB]`. -/
theorem findMaxProfit_optimal_witness :
    validSeq 7 [PUB] ∧ (specProfit 7 [PUB] : ℤ) ≤ (findMaxProfit 7).profit :=
  ⟨by decide, (findMaxProfit_optimal 7).1 [PUB] (by decide)⟩

set_option maxRecDepth 40000 in
/-- C2: the four concrete scenarios of the specification are reproduced
exactly: `findMaxProfit 7` gives counts T1/P0/C0 with profit 3000,
`findMaxProfit 8` gives T1/P0/C0 with 4500, `findMaxProfit 13` gives
T2/P0/C0 with 16500, `findMaxProfit 49` gives T8/P2/C0 with 324000. -/
theorem findMaxProfit_scenarios :
    (findMaxProfit 7).profit = 3000 ∧ (findMaxProfit 7).counts = ⟨1, 0, 0⟩ ∧
    (findMaxProfit 8).profit = 4500 ∧ (findMaxProfit 8).counts = ⟨1, 0, 0⟩ ∧
    (findMaxProfit 13).profit = 16500 ∧ (findMaxProfit 13).counts = ⟨2, 0, 0⟩ ∧
    (findMaxProfit 49).profit = 324000 ∧ (findMaxProfit 49).counts = ⟨8, 2, 0⟩ := by
  decide

/-- C5: recomputing the profit of the returned sequence with
`calculateProfit` (summing `(n − finishTime) · earnings` with finish times
the cumulative durations) gives exactly the reported profit. -/
theorem findMaxProfit_roundTrip (n : ℕ) :
    (calculateProfit (findMaxProfit n).sequence n : ℤ) = (findMaxProfit n).profit := by
  obtain ⟨hmem, hdur, hpr⟩ := findMaxProfit_achieves n
  have hc : calculateProfit (findMaxProfit n).sequence n =
      specProfit n (findMaxProfit n).sequence := by
    rw [calculateProfit, calcFrom_eq_profitAux n _ 0 (by omega)]
    rfl
  rw [hc, hpr]

/-- C6: the returned profit is never negative, and the degenerate horizons
`n = 0` and `n = 3` (too short for any building) give profit `0`, zero counts
and an empty sequence. -/
theorem findMaxProfit_nonneg_and_base :
    (∀ n : ℕ, 0 ≤ (findMaxProfit n).profit) ∧
    (findMaxProfit 0).profit = 0 ∧ (findMaxProfit 0).counts = ⟨0, 0, 0⟩ ∧
    (findMaxProfit 0).sequence = [] ∧
    (findMaxProfit 3).profit = 0 ∧ (findMaxProfit 3).counts = ⟨0, 0, 0⟩ ∧
    (findMaxProfit 3).sequence = [] := by
  refine ⟨fun n => ?_, by decide⟩
  rw [findMaxProfit_profit]
  exact maxProfitOf_dpTable_nonneg n

/-- C8: the sequence chosen by `findMaxProfit n` has total construction
duration at most `n`, and every reached DP cell at finish time `t` holds a
sequence whose durations sum to exactly `t`. -/
theorem findMaxProfit_no_overrun (n : ℕ) :
    durSum (findMaxProfit n).sequence ≤ n ∧
    ∀ t ≤ n, 0 ≤ (entryAt (dpTable n) t).profit →
      durSum (entryAt (dpTable n) t).sequence = t := by
  exact ⟨(findMaxProfit_achieves n).2.1, fun t _ hp => ((tableOK_dpTable n).2 t hp).2.1⟩

/-- Witness for C8 at `n = 7`, `t = 5` (a reached cell). -/
theorem findMaxProfit_no_overrun_witness :
    durSum (findMaxProfit 7).sequence ≤ 7 ∧
    0 ≤ (entryAt (dpTable 7) 5).profit ∧
    durSum (entryAt (dpTable 7) 5).sequence = 5 :=
  ⟨(findMaxProfit_no_overrun 7).1, by decide,
    (findMaxProfit_no_overrun 7).2 5 (by decide) (by decide)⟩

/-- C9: at the boundary `n = 4` the maximum achievable profit is `0`, yet the
optimizer returns the one-element sequence `[PUB]` (counts T0/P1/C0) finishing
exactly at the horizon — not the empty sequence, which the
`sequence.length > 0` filter excludes from collection. -/
theorem findMaxProfit_boundary_four :
    findMaxProfit 4 = ⟨0, ⟨0, 1, 0⟩, [PUB], [⟨0, 1, 0⟩]⟩ ∧
    durSum (findMaxProfit 4).sequence = 4 := by
  decide

/-- C3 counterexample: at `n = 4` the DP state at finish time `0` (the empty
sequence) achieves the maximum profit `0` and `0 < 4`, yet the sequence
returned by `findMaxProfit 4` finishes exactly at `4 = n` — so, quantifying
over all finish times whose DP state achieves `maxProfit` (as the claim
does), the returned sequence does not finish strictly before `n` even though
such a finish time exists. -/
theorem findMaxProfit_tiebreak_counterexample :
    (0 : ℕ) < 4 ∧
    (entryAt (dpTable 4) 0).profit = maxProfitOf 4 (dpTable 4) ∧
    durSum (findMaxProfit 4).sequence = 4 := by
  decide

/-- C3 (amended): the tie-break policy holds once the quantification is over
finish times whose DP state achieves `maxProfit` *with a nonempty sequence*
(the collection loop's `sequence.length > 0` filter excludes the empty
sequence at `t = 0`, which the original claim's quantification includes).
Among such finish times: if one is strictly below `n`, the returned sequence
finishes strictly before `n`, at the largest such finish time; only when none
is below `n` (and the cell at `n` qualifies) does the returned sequence
finish exactly at `n`. -/
theorem findMaxProfit_tiebreak (n : ℕ) :
    ((∃ t, t < n ∧ (entryAt (dpTable n) t).profit = maxProfitOf n (dpTable n) ∧
        (entryAt (dpTable n) t).sequence ≠ []) →
      durSum (findMaxProfit n).sequence < n ∧
      (entryAt (dpTable n) (durSum (findMaxProfit n).sequence)).profit =
        maxProfitOf n (dpTable n) ∧
      (∀ t, t < n → (entryAt (dpTable n) t).profit = maxProfitOf n (dpTable n) →
        (entryAt (dpTable n) t).sequence ≠ [] →
        t ≤ durSum (findMaxProfit n).sequence)) ∧
    ((¬ ∃ t, t < n ∧ (entryAt (dpTable n) t).profit = maxProfitOf n (dpTable n) ∧
        (entryAt (dpTable n) t).sequence ≠ []) →
      (entryAt (dpTable n) n).profit = maxProfitOf n (dpTable n) →
      (entryAt (dpTable n) n).sequence ≠ [] →
      durSum (findMaxProfit n).sequence = n) := by
  constructor
  · rintro ⟨t, htn, htp, hts⟩
    have hq : Qualifies n (dpTable n) (maxProfitOf n (dpTable n)) t :=
      ⟨htp, hts, by rintro ⟨rfl, _⟩; omega⟩
    obtain ⟨st, hst, hstf⟩ := exists_sorted_of_qualifies (by omega) hq
    rcases findMaxProfit_cases n with ⟨hnil, _, _, _⟩ | ⟨s, rest, hcons, hseq, _, hok, hhead⟩
    · rw [hnil] at hst
      exact absurd hst (List.not_mem_nil st)
    · obtain ⟨hsle, hsq, hsseq, _⟩ := hok
      have hprof : 0 ≤ (entryAt (dpTable n) s.finishTime).profit := by
        rw [hsq.1]
        exact maxProfitOf_dpTable_nonneg n
      obtain ⟨_, hdur, _⟩ := (tableOK_dpTable n).2 s.finishTime hprof
      have hres : durSum (findMaxProfit n).sequence = s.finishTime := by
        rw [hseq, hsseq, hdur]
      have hstf_lt : st.finishTime < n := by rw [hstf]; exact htn
      have hsfn : s.finishTime < n := by
        rcases lt_or_eq_of_le hsle with h | h
        · exact h
        · exfalso
          have hrel_st := hhead st hst
          revert hrel_st
          simp only [solRel, solLE]
          rw [if_neg (by omega), if_pos ⟨h, hstf_lt⟩]
          simp
      refine ⟨by rw [hres]; exact hsfn, by rw [hres]; exact hsq.1, ?_⟩
      intro t' ht'n ht'p ht's
      have hq' : Qualifies n (dpTable n) (maxProfitOf n (dpTable n)) t' :=
        ⟨ht'p, ht's, by rintro ⟨rfl, _⟩; omega⟩
      obtain ⟨st', hst', hst'f⟩ := exists_sorted_of_qualifies (by omega) hq'
      have hrel := hhead st' hst'
      rw [hres, ← hst'f]
      revert hrel
      simp only [solRel, solLE]
      rw [if_neg (by rw [hst'f]; omega), if_neg (by omega)]
      simp
  · intro hno hpn hsn
    have hother : hasOtherSolutions n (dpTable n) (maxProfitOf n (dpTable n)) ≠ true := by
      intro hT
      obtain ⟨j, hj, hjp, hjs⟩ := (hasOtherSolutions_iff n (dpTable n) _).1 hT
      exact hno ⟨j, hj, hjp, hjs⟩
    have hq : Qualifies n (dpTable n) (maxProfitOf n (dpTable n)) n :=
      ⟨hpn, hsn, by rintro ⟨_, hT⟩; exact hother hT⟩
    obtain ⟨st, hst, hstf⟩ := exists_sorted_of_qualifies le_rfl hq
    rcases findMaxProfit_cases n with ⟨hnil, _, _, _⟩ | ⟨s, rest, hcons, hseq, _, hok, _⟩
    · rw [hnil] at hst
      exact absurd hst (List.not_mem_nil st)
    · obtain ⟨hsle, hsq, hsseq, _⟩ := hok
      have hprof : 0 ≤ (entryAt (dpTable n) s.finishTime).profit := by
        rw [hsq.1]
        exact maxProfitOf_dpTable_nonneg n
      obtain ⟨_, hdur, _⟩ := (tableOK_dpTable n).2 s.finishTime hprof
      have hres : durSum (findMaxProfit n).sequence = s.finishTime := by
        rw [hseq, hsseq, hdur]
      rcases lt_or_eq_of_le hsle with h | h
      · exact absurd ⟨s.finishTime, h, hsq.1, hsq.2.1⟩ hno
      · rw [hres, h]

/-- Witness for C3 (amended) at `n = 7`: finish time `5` qualifies, and the
returned sequence indeed finishes before `7` at the largest qualifying finish
time. -/
theorem findMaxProfit_tiebreak_witness :
    durSum (findMaxProfit 7).sequence < 7 ∧
    (entryAt (dpTable 7) (durSum (findMaxProfit 7).sequence)).profit =
      maxProfitOf 7 (dpTable 7) ∧
    5 ≤ durSum (findMaxProfit 7).sequence := by
  have h := (findMaxProfit_tiebreak 7).1 ⟨5, by decide, by decide, by decide⟩
  exact ⟨h.1, h.2.1, h.2.2 5 (by decide) (by decide) (by decide)⟩

theorem tryBuilding_change {n t f : ℕ} {dp : List DpEntry} {b : Building}
    (hch : entryAt (tryBuilding n t dp b) f ≠ entryAt dp f) :
    (entryAt dp f).profit < 0 ∨
      (entryAt dp f).profit < (entryAt (tryBuilding n t dp b) f).profit := by
  rcases eq_or_ne f (t + b.time) with rfl | hne
  · revert hch
    simp only [tryBuilding]
    split <;> [skip; exact fun hch => absurd rfl hch]
    split
    next hg =>
      intro hch
      rcases Nat.lt_or_ge (t + b.time) dp.length with hl | hl
      · rw [entryAt_set_self _ _ _ hl]
        exact hg
      · rw [List.set_eq_of_length_le (by omega)] at hch
        exact absurd rfl hch
    next => exact fun hch => absurd rfl hch
  · rw [entryAt_tryBuilding_ne _ _ _ _ hne] at hch
    exact absurd rfl hch

/-- C7: no-overwrite-on-tie invariant of the forward DP loop. First part: an
outer-loop iteration at time `t` changes the cell at a finish time `f` only
if that cell was unreached (`profit < 0`) or its profit strictly increases —
so a candidate whose profit merely equals the stored profit never overwrites
the stored state, and the first-discovered transition wins (transitions being
explored in increasing `t` by `dpUpTo` and, within an iteration, in catalog
order Theatre, Pub, Commercial by `step`). Second part, the tie case made
explicit: if the stored profit at `t + b.time` already equals the candidate
profit of building `b` from time `t`, the inner-loop body leaves the whole
table unchanged. -/
theorem dp_no_overwrite (n t f : ℕ) (dp : List DpEntry) (b : Building)
    (hsrc : 0 ≤ (entryAt dp t).profit) :
    (entryAt (step n dp t) f ≠ entryAt dp f →
      (entryAt dp f).profit < 0 ∨
        (entryAt dp f).profit < (entryAt (step n dp t) f).profit) ∧
    ((entryAt dp (t + b.time)).profit =
        (entryAt dp t).profit + (((n - (t + b.time)) * b.earnings : ℕ) : ℤ) →
      tryBuilding n t dp b = dp) := by
  constructor
  · intro hch
    rw [step_eq, if_neg (not_lt.2 hsrc)] at hch ⊢
    by_cases h1 : entryAt (tryBuilding n t dp THEATRE) f = entryAt dp f
    · by_cases h2 : entryAt (tryBuilding n t (tryBuilding n t dp THEATRE) PUB) f =
          entryAt (tryBuilding n t dp THEATRE) f
      · have h3 : entryAt (tryBuilding n t (tryBuilding n t
            (tryBuilding n t dp THEATRE) PUB) COMMERCIAL) f ≠
            entryAt (tryBuilding n t (tryBuilding n t dp THEATRE) PUB) f := by
          rw [h2, h1]
          exact hch
        have hc := tryBuilding_change h3
        rw [h2, h1] at hc
        exact hc
      · have hc := tryBuilding_change h2
        rw [h1] at hc
        rcases hc with hc | hc
        · exact Or.inl hc
        · exact Or.inr (lt_of_lt_of_le hc (tryBuilding_mono n t _ COMMERCIAL
            (by rw [entryAt_tb2]; exact hsrc) f))
    · have hc := tryBuilding_change h1
      rcases hc with hc | hc
      · exact Or.inl hc
      · refine Or.inr (lt_of_lt_of_le hc (le_trans
          (tryBuilding_mono n t _ PUB (by rw [entryAt_tb1]; exact hsrc) f)
          (tryBuilding_mono n t _ COMMERCIAL (by rw [entryAt_tb2]; exact hsrc) f)))
  · intro he
    simp only [tryBuilding]
    split <;> [skip; rfl]
    rw [if_neg]
    rw [he]
    push_neg
    refine ⟨add_nonneg hsrc (Int.natCast_nonneg _), le_rfl⟩

/-- Witness for C7: at `n = 9` the first iteration (`t = 0`) turns the
unreached cell at finish time `5` into a reached one (first part applied with
its change hypothesis discharged), and at `n = 8` re-offering a Pub from
`t = 0` against the final table — whose cell at `4` already stores exactly
the candidate profit `4000` — leaves the table unchanged (second part). -/
theorem dp_no_overwrite_witness :
    (entryAt (step 9 (dpInit 9) 0) 5 ≠ entryAt (dpInit 9) 5) ∧
    ((entryAt (dpInit 9) 5).profit < 0 ∨
      (entryAt (dpInit 9) 5).profit < (entryAt (step 9 (dpInit 9) 0) 5).profit) ∧
    ((entryAt (dpTable 8) (0 + PUB.time)).profit =
      (entryAt (dpTable 8) 0).profit + (((8 - (0 + PUB.time)) * PUB.earnings : ℕ) : ℤ)) ∧
    tryBuilding 8 0 (dpTable 8) PUB = dpTable 8 :=
  ⟨by decide,
   (dp_no_overwrite 9 0 5 (dpInit 9) PUB (by decide)).1 (by decide),
   by decide,
   (dp_no_overwrite 8 0 4 (dpTable 8) PUB (by decide)).2 (by decide)⟩

/-- C4 counterexample: `findMaxProfit(-1)` does not fail at all — it returns
the empty result (profit `0`, zero counts) as a normal value, so the claim
that every negative or non-integer input fails with an `InvalidInputError`
is false (and indeed no such error type exists anywhere in the source). -/
theorem findMaxProfitJS_neg_one : findMaxProfitJS (-1) = Except.ok emptyResult := by
  have h0 : ((-1 : ℚ) + 1) = 0 := by norm_num
  simp [findMaxProfitJS, h0]

/-- C4 (amended): `findMaxProfit` performs no input validation and the source
defines no `InvalidInputError`. For a negative or non-integer number `q`:
when `q = -1` the call returns the empty result as a normal value; for every
other such `q` the only failure is the generic `RangeError` thrown by
`new Array(q + 1)` on an invalid array length. -/
theorem findMaxProfitJS_invalid (q : ℚ) (h : q < 0 ∨ q.den ≠ 1) :
    findMaxProfitJS q =
      if q = -1 then Except.ok emptyResult else Except.error JsError.rangeError := by
  by_cases hq : q = -1
  · subst hq
    rw [if_pos rfl]
    have h0 : ((-1 : ℚ) + 1) = 0 := by norm_num
    simp [findMaxProfitJS, h0]
  · rw [if_neg hq]
    have hcond : ¬((q + 1).den = 1 ∧ 0 ≤ (q + 1).num ∧ (q + 1).num ≤ 2 ^ 32 - 1) := by
      rintro ⟨hden, hnum, _⟩
      have hint : ((q + 1).num : ℚ) = q + 1 := Rat.coe_int_num_of_den_eq_one hden
      have hqden : q.den = 1 := by
        have hq_eq : q = (((q + 1).num - 1 : ℤ) : ℚ) := by
          push_cast
          rw [hint]
          ring
        rw [hq_eq, Rat.den_intCast]
      have hqcast : ((q.num : ℤ) : ℚ) = q := (Rat.den_eq_one_iff q).1 hqden
      have hneg : q < 0 := by
        rcases h with hneg | hden'
        · exact hneg
        · exact absurd hqden hden'
      have hqnum_neg : q.num < 0 := by
        have h1 : ((q.num : ℤ) : ℚ) < 0 := by rw [hqcast]; exact hneg
        exact_mod_cast h1
      have hqnum_ne : q.num ≠ -1 := by
        intro he
        apply hq
        rw [← hqcast, he]
        norm_num
      have hsum : (q + 1) = ((q.num + 1 : ℤ) : ℚ) := by
        push_cast
        rw [hqcast]
      have hnum1 : (q + 1).num = q.num + 1 := by rw [hsum, Rat.num_intCast]
      omega
    rw [findMaxProfitJS, if_neg hcond]

/-- Witness for C4 (amended) at `q = -2`: a negative integer other than `-1`
yields the `RangeError` from array allocation. -/
theorem findMaxProfitJS_invalid_witness :
    ((-2 : ℚ) < 0 ∨ ((-2 : ℚ)).den ≠ 1) ∧
    findMaxProfitJS (-2) = Except.error JsError.rangeError := by
  have h := findMaxProfitJS_invalid (-2) (Or.inl (by norm_num))
  rw [if_neg (by norm_num)] at h
  exact ⟨Or.inl (by norm_num), h⟩

/-! ## Output formatting -/

theorem digitChar_isDigit : ∀ m : ℕ, m < 10 → (Nat.digitChar m).isDigit = true := by
  decide

theorem toDigitsCore_digits :
    ∀ (f n : ℕ) (l : List Char), (∀ c ∈ l, c.isDigit = true) →
      ∀ c ∈ Nat.toDigitsCore 10 f n l, c.isDigit = true := by
  intro f
  induction f with
  | zero =>
    intro n l hl
    simpa [Nat.toDigitsCore] using hl
  | succ f ih =>
    intro n l hl c hc
    rw [Nat.toDigitsCore] at hc
    have hcons : ∀ x ∈ Nat.digitChar (n % 10) :: l, x.isDigit = true := by
      intro x hx
      rcases List.mem_cons.1 hx with rfl | hx
      · exact digitChar_isDigit _ (Nat.mod_lt _ (by norm_num))
      · exact hl x hx
    revert hc
    split
    · exact fun hc => hcons c hc
    · exact fun hc => ih (n / 10) _ hcons c hc

theorem toDigitsCore_ne_nil :
    ∀ (f n : ℕ) (l : List Char), l ≠ [] → Nat.toDigitsCore 10 f n l ≠ [] := by
  intro f
  induction f with
  | zero =>
    intro n l hl
    simpa [Nat.toDigitsCore] using hl
  | succ f ih =>
    intro n l hl
    rw [Nat.toDigitsCore]
    split
    · exact List.cons_ne_nil _ _
    · exact ih (n / 10) _ (List.cons_ne_nil _ _)

theorem repr_data_ne_nil (m : ℕ) : (Nat.repr m).data ≠ [] := by
  show Nat.toDigitsCore 10 (m + 1) m [] ≠ []
  rw [Nat.toDigitsCore]
  split
  · exact List.cons_ne_nil _ _
  · exact toDigitsCore_ne_nil m _ _ (List.cons_ne_nil _ _)

theorem repr_data_digits (m : ℕ) : ∀ c ∈ (Nat.repr m).data, c.isDigit = true := by
  intro c hc
  have hd : (Nat.repr m).data = Nat.toDigitsCore 10 (m + 1) m [] := rfl
  rw [hd] at hc
  exact toDigitsCore_digits (m + 1) m [] (by simp) c hc

/-- C10: `formatOutput` produces exactly the string
`"T: <T> P: <P> C: <C>"`, the three counts rendered as decimal numerals
(`Nat.repr`) separated by single spaces; in particular the last character is
a decimal digit, so there is no trailing whitespace. -/
theorem formatOutput_spec (c : Counts) :
    formatOutput c =
      "T: " ++ Nat.repr c.T ++ " P: " ++ Nat.repr c.P ++ " C: " ++ Nat.repr c.C ∧
    ∃ ch, (formatOutput c).data.getLast? = some ch ∧ ch.isDigit = true := by
  refine ⟨rfl, ?_⟩
  have hne := repr_data_ne_nil c.C
  obtain ⟨ch, hch⟩ := Option.isSome_iff_exists.1 (List.getLast?_isSome.2 hne)
  refine ⟨ch, ?_, ?_⟩
  · have hd : (formatOutput c).data =
        "T: ".data ++ (Nat.repr c.T).data ++ " P: ".data ++ (Nat.repr c.P).data ++
          " C: ".data ++ (Nat.repr c.C).data := rfl
    rw [hd, List.getLast?_append, hch]
    rfl
  · exact repr_data_digits c.C ch (List.mem_of_mem_getLast? (Option.mem_def.2 hch))
